import Mathlib

/-!
Verification of the signaling server of video-call-app-basic.

The server keeps three JavaScript Maps: `rooms` (room id to Set of socket
ids), `socketToRoom` (socket id to room id) and `userProfiles` (socket id
to profile).  We model a Map as an association list whose keys are unique,
preserving insertion order (JS Map iteration order), and a Set of socket
ids as a duplicate-free list in insertion order.  Socket-event handlers
become functions from the server state (plus the message payload and the
current time) to the new state paired with the list of emitted events, in
emission order.  A payload field that may be absent, null or empty is an
`Option String`, and JS falsiness of such a field is absence or emptiness.
-/

namespace VideoCall

/-- Lookup in an association list, as JS `Map.get` (first matching key). -/
def alGet {α : Type} (m : List (String × α)) (k : String) : Option α :=
  match m with
  | [] => none
  | (k', v) :: t => if k' = k then some v else alGet t k

/-- JS `Map.set`: replace the value in place if the key is present, else append. -/
def alSet {α : Type} (m : List (String × α)) (k : String) (v : α) : List (String × α) :=
  match m with
  | [] => [(k, v)]
  | (k', v') :: t => if k' = k then (k, v) :: t else (k', v') :: alSet t k v

/-- JS `Map.delete`: remove the entry with the given key. -/
def alDel {α : Type} (m : List (String × α)) (k : String) : List (String × α) :=
  m.filter (fun p => p.1 ≠ k)

/-- JS `Set.add`: append the element if it is not already present. -/
def setAdd (s : List String) (x : String) : List String :=
  if x ∈ s then s else s ++ [x]

/-- JS falsiness of a string-valued payload field: absent/null/undefined or empty. -/
def jsFalsy : Option String → Bool
  | none => true
  | some s => s.isEmpty

/-- The JS whitespace characters relevant to `String.prototype.trim`. -/
def isJsWS (c : Char) : Bool :=
  c = ' ' || c = '\t' || c = '\n' || c = '\r' || c = '\x0b' || c = '\x0c' || c = ' '

/-- Leading whitespace removal on the character list of a string. -/
def jsTrimLeft (l : List Char) : List Char :=
  l.dropWhile isJsWS

/-- Trailing whitespace removal on the character list of a string. -/
def jsTrimRight (l : List Char) : List Char :=
  (l.reverse.dropWhile isJsWS).reverse

/-- JS `String.prototype.trim` on the character list of a string. -/
def jsTrim (l : List Char) : List Char :=
  jsTrimRight (jsTrimLeft l)

/-- JS `String.prototype.toLowerCase`, modelled characterwise. -/
def jsLower (l : List Char) : List Char :=
  l.map Char.toLower

/-- `roomId.trim().toLowerCase()` from the room:join handler: the canonical room key. -/
def cleanRoomId (s : String) : String :=
  ⟨jsLower (jsTrim s.data)⟩

/-- A user profile as stored in `userProfiles`.  Timestamps are Nats
(milliseconds); `currentRoom` is set by the room:join handler. -/
structure Profile where
  connectedAt : Nat
  lastActivity : Nat
  currentRoom : Option String := none
  deriving Repr, DecidableEq

/-- The result of `getRoomInfo`: room id, members with their (possibly absent)
profiles, and member count. -/
structure RoomInfo where
  roomId : String
  users : List (String × Option Profile)
  userCount : Nat
  deriving Repr, DecidableEq

/-- An event emitted by the server.  The first `String` of every constructor is
the socket the event is addressed to. -/
inductive Event where
  | userLeft (dest : String) (socketId : String) (roomId : String) (userCount : Nat)
  | userJoined (dest : String) (socketId : String) (roomId : String) (roomInfo : Option RoomInfo)
  | roomJoined (dest : String) (roomInfo : Option RoomInfo)
  | userDisconnected (dest : String) (socketId : String) (roomId : String) (reason : String)
      (timestamp : Nat)
  | errorEvt (dest : String) (message : String)
  | incomingCall (dest : String) (fromSock : String) (offer : String) (timestamp : Nat)
  | callAcceptedEvt (dest : String) (fromSock : String) (answer : String) (timestamp : Nat)
  | iceCandidateEvt (dest : String) (candidate : String) (fromSock : String)
  | callEndedEvt (dest : String) (fromSock : String) (timestamp : Nat)
  deriving Repr, DecidableEq

/-- The server state: the three global Maps. -/
structure ServerState where
  rooms : List (String × List String)
  socketToRoom : List (String × String)
  userProfiles : List (String × Profile)
  deriving Repr, DecidableEq

/-- `getRoomInfo(roomId)`. -/
def getRoomInfo (st : ServerState) (roomId : String) : Option RoomInfo :=
  match alGet st.rooms roomId with
  | none => none
  | some room =>
      some { roomId := roomId
             users := room.map (fun sid => (sid, alGet st.userProfiles sid))
             userCount := room.length }

/-- `cleanupRoom(roomId)`: delete the room entry when its member set is empty.
Returns the new state and whether a deletion happened. -/
def cleanupRoom (st : ServerState) (roomId : String) : ServerState × Bool :=
  match alGet st.rooms roomId with
  | some room =>
      if room.length = 0 then
        ({ st with rooms := alDel st.rooms roomId }, true)
      else (st, false)
  | none => (st, false)

/-- `leaveCurrentRoom(socketId)`: remove the socket from its current room (if
any), notify the remaining members with user:left, delete the room if now
empty, and clear the socketToRoom entry.  Returns the new state, the emitted
events, and the vacated room id (null when none). -/
def leaveCurrentRoom (st : ServerState) (socketId : String) :
    ServerState × List Event × Option String :=
  match alGet st.socketToRoom socketId with
  | none => (st, [], none)
  | some currentRoom =>
      let stEvs : ServerState × List Event :=
        match alGet st.rooms currentRoom with
        | some room =>
            let room' := room.filter (fun x => x ≠ socketId)
            let st1 : ServerState := { st with rooms := alSet st.rooms currentRoom room' }
            let evs := room'.map (fun other =>
              Event.userLeft other socketId currentRoom room'.length)
            ((cleanupRoom st1 currentRoom).1, evs)
        | none => (st, [])
      let st2 := stEvs.1
      ({ st2 with socketToRoom := alDel st2.socketToRoom socketId }, stEvs.2, some currentRoom)

/-- The capacity check of the room:join handler: the target room exists, has
at least 2 members, and does not contain the joiner. -/
def roomFull (st : ServerState) (socketId clean : String) : Bool :=
  match alGet st.rooms clean with
  | some existingRoom => 2 ≤ existingRoom.length && !(existingRoom.contains socketId)
  | none => false

/-- The body of the room:join handler after validation and the capacity check
passed (everything from `leaveCurrentRoom(socket.id)` on). -/
def joinProceed (st : ServerState) (now : Nat) (socketId clean : String) :
    ServerState × List Event :=
  let lv := leaveCurrentRoom st socketId
  let st1 := lv.1
  let evs1 := lv.2.1
  let st2 : ServerState :=
    { st1 with socketToRoom := alSet st1.socketToRoom socketId clean }
  let st3 : ServerState :=
    match alGet st2.rooms clean with
    | none => { st2 with rooms := alSet st2.rooms clean [] }
    | some _ => st2
  let room := setAdd ((alGet st3.rooms clean).getD []) socketId
  let st4 : ServerState := { st3 with rooms := alSet st3.rooms clean room }
  let st5 : ServerState :=
    match alGet st4.userProfiles socketId with
    | some p =>
        let p' : Profile := { p with lastActivity := now, currentRoom := some clean }
        { st4 with userProfiles := alSet st4.userProfiles socketId p' }
    | none => st4
  let roomInfo := getRoomInfo st5 clean
  let otherUsers := room.filter (fun x => x ≠ socketId)
  let evs2 : List Event :=
    match otherUsers with
    | [] => []
    | first :: _ =>
        Event.userJoined socketId first clean roomInfo ::
          otherUsers.map (fun u => Event.userJoined u socketId clean roomInfo)
  (st5, evs1 ++ evs2 ++ [Event.roomJoined socketId roomInfo])

/-- The room:join handler.  `rawRoomId` is the `roomId` payload field (`none`
for an absent or non-string value). -/
def roomJoin (st : ServerState) (now : Nat) (socketId : String)
    (rawRoomId : Option String) : ServerState × List Event :=
  match rawRoomId with
  | none => (st, [Event.errorEvt socketId "Invalid room ID"])
  | some rid =>
      if jsTrim rid.data = [] then (st, [Event.errorEvt socketId "Invalid room ID"])
      else
        let clean := cleanRoomId rid
        if roomFull st socketId clean then (st, [Event.errorEvt socketId "Room is full"])
        else joinProceed st now socketId clean

/-- The outgoing:call handler.  `claimedFrom` stands for any `from` field the
sender may have put in the payload; the destructuring `({ to, offer })` in the
source ignores it. -/
def outgoingCall (st : ServerState) (now : Nat) (socketId : String)
    (toDest offer claimedFrom : Option String) : ServerState × List Event :=
  if jsFalsy toDest || jsFalsy offer then
    (st, [Event.errorEvt socketId "Invalid call parameters"])
  else
    match toDest, offer with
    | some toS, some offerS =>
        let callerRoom := alGet st.socketToRoom socketId
        let receiverRoom := alGet st.socketToRoom toS
        if jsFalsy callerRoom || callerRoom ≠ receiverRoom then
          (st, [Event.errorEvt socketId "Users are not in the same room"])
        else
          (st, [Event.incomingCall toS socketId offerS now])
    | _, _ => (st, [])

/-- The call:accepted handler.  It validates only that `to` and `answer` are
present; it performs no room check.  `claimedFrom` is ignored as in
`outgoingCall`. -/
def callAccepted (st : ServerState) (now : Nat) (socketId : String)
    (toDest answer claimedFrom : Option String) : ServerState × List Event :=
  if jsFalsy toDest || jsFalsy answer then
    (st, [Event.errorEvt socketId "Invalid answer parameters"])
  else
    match toDest, answer with
    | some toS, some answerS =>
        (st, [Event.callAcceptedEvt toS socketId answerS now])
    | _, _ => (st, [])

/-- The ice:candidate handler: a falsy candidate or destination is silently
ignored.  `claimedFrom` is ignored as in `outgoingCall`. -/
def iceCandidate (st : ServerState) (socketId : String)
    (candidate toDest claimedFrom : Option String) : ServerState × List Event :=
  if jsFalsy candidate || jsFalsy toDest then (st, [])
  else
    match candidate, toDest with
    | some candS, some toS => (st, [Event.iceCandidateEvt toS candS socketId])
    | _, _ => (st, [])

/-- The call:ended handler.  `claimedFrom` is ignored as in `outgoingCall`. -/
def callEnded (st : ServerState) (now : Nat) (socketId : String)
    (toDest claimedFrom : Option String) : ServerState × List Event :=
  if jsFalsy toDest then (st, [])
  else
    match toDest with
    | some toS => (st, [Event.callEndedEvt toS socketId now])
    | none => (st, [])

/-- The disconnect handler: leave the current room (emitting user:left inside
`leaveCurrentRoom`), delete the profile, then additionally notify the
remaining members of the vacated room with user:disconnected. -/
def handleDisconnect (st : ServerState) (now : Nat) (socketId : String)
    (reason : String) : ServerState × List Event :=
  let lv := leaveCurrentRoom st socketId
  let st1 := lv.1
  let evs1 := lv.2.1
  let leftRoom := lv.2.2
  let st2 : ServerState := { st1 with userProfiles := alDel st1.userProfiles socketId }
  let evs2 : List Event :=
    match leftRoom with
    | none => []
    | some lr =>
        match alGet st2.rooms lr with
        | some room =>
            if 0 < room.length then
              room.map (fun r => Event.userDisconnected r socketId lr reason now)
            else []
        | none => []
  (st2, evs1 ++ evs2)

/-- The connection handler: store a fresh profile for the socket. -/
def registerConnection (st : ServerState) (now : Nat) (socketId : String) : ServerState :=
  let p : Profile := { connectedAt := now, lastActivity := now }
  { st with userProfiles := alSet st.userProfiles socketId p }

/-- 30 minutes in milliseconds, the `maxInactiveTime` of the cleanup interval. -/
def maxInactiveTime : Nat := 30 * 60 * 1000

/-- The `userProfiles.forEach` body of the cleanup interval, walking the
snapshot of `userProfiles` taken when the sweep starts: each stale profile is
deleted and the socket is made to leave its room. -/
def sweepUsers (now : Nat) : List (String × Profile) → ServerState →
    ServerState × List Event
  | [], st => (st, [])
  | (socketId, profile) :: rest, st =>
      if maxInactiveTime < now - profile.lastActivity then
        let st1 : ServerState := { st with userProfiles := alDel st.userProfiles socketId }
        let lv := leaveCurrentRoom st1 socketId
        let rec' := sweepUsers now rest lv.1
        (rec'.1, lv.2.1 ++ rec'.2)
      else sweepUsers now rest st

/-- One run of the periodic cleanup interval: sweep stale users, then delete
every empty room. -/
def cleanupSweep (st : ServerState) (now : Nat) : ServerState × List Event :=
  let swept := sweepUsers now st.userProfiles st
  let st1 := swept.1
  ({ st1 with rooms := st1.rooms.filter (fun p => p.2.length ≠ 0) }, swept.2)

/-- The state well-formedness invariant: Map keys are unique, every member set
is duplicate-free with at most 2 elements, room keys are nonempty, and room
membership agrees with `socketToRoom` in both directions. -/
def Inv (st : ServerState) : Prop :=
  (st.rooms.map Prod.fst).Nodup ∧
  (st.socketToRoom.map Prod.fst).Nodup ∧
  (∀ p ∈ st.rooms, p.2.Nodup ∧ p.2.length ≤ 2 ∧ p.1 ≠ "") ∧
  (∀ p ∈ st.socketToRoom, ∃ q ∈ st.rooms, q.1 = p.2 ∧ p.1 ∈ q.2) ∧
  (∀ q ∈ st.rooms, ∀ s ∈ q.2, alGet st.socketToRoom s = some q.1)

instance (st : ServerState) : Decidable (Inv st) := by
  unfold Inv
  infer_instance

/-! ### Association-list lemmas -/

@[simp]
theorem alGet_alSet_self {α : Type} (m : List (String × α)) (k : String) (v : α) :
    alGet (alSet m k v) k = some v := by
  induction m with
  | nil => simp [alSet, alGet]
  | cons p t ih =>
      obtain ⟨k', v'⟩ := p
      by_cases h : k' = k
      · simp [alSet, alGet, h]
      · simp [alSet, alGet, h, ih]

theorem alGet_alSet_ne {α : Type} (m : List (String × α)) (k k' : String) (v : α)
    (h : k' ≠ k) : alGet (alSet m k v) k' = alGet m k' := by
  have hk' : k ≠ k' := Ne.symm h
  induction m with
  | nil => simp [alSet, alGet, hk']
  | cons p t ih =>
      obtain ⟨k'', v''⟩ := p
      by_cases hk : k'' = k
      · subst hk
        simp [alSet, alGet, hk']
      · simp only [alSet, if_neg hk, alGet]
        by_cases hk2 : k'' = k'
        · simp [hk2]
        · simp [hk2, ih]

@[simp]
theorem alGet_alDel_self {α : Type} (m : List (String × α)) (k : String) :
    alGet (alDel m k) k = none := by
  induction m with
  | nil => simp [alDel, alGet]
  | cons p t ih =>
      obtain ⟨k', v'⟩ := p
      by_cases h : k' = k
      · simpa [alDel, h] using ih
      · simpa [alDel, alGet, h] using ih

theorem alGet_alDel_ne {α : Type} (m : List (String × α)) (k k' : String)
    (h : k' ≠ k) : alGet (alDel m k) k' = alGet m k' := by
  have hk' : k ≠ k' := Ne.symm h
  induction m with
  | nil => simp [alDel, alGet]
  | cons p t ih =>
      obtain ⟨k'', v''⟩ := p
      by_cases hk : k'' = k
      · subst hk
        simpa [alDel, alGet, hk'] using ih
      · by_cases hk2 : k'' = k'
        · subst hk2
          simp [alDel, alGet, hk]
        · simpa [alDel, alGet, hk, hk2] using ih

theorem mem_of_alGet_eq_some {α : Type} {m : List (String × α)} {k : String} {v : α}
    (h : alGet m k = some v) : (k, v) ∈ m := by
  induction m with
  | nil => simp [alGet] at h
  | cons p t ih =>
      obtain ⟨k', v'⟩ := p
      by_cases hk : k' = k
      · subst hk
        simp [alGet] at h
        simp [h]
      · simp [alGet, hk] at h
        exact List.mem_cons_of_mem _ (ih h)

theorem alGet_eq_some_of_mem {α : Type} {m : List (String × α)} {k : String} {v : α}
    (hnd : (m.map Prod.fst).Nodup) (h : (k, v) ∈ m) : alGet m k = some v := by
  induction m with
  | nil => simp at h
  | cons p t ih =>
      obtain ⟨k', v'⟩ := p
      simp only [List.map_cons, List.nodup_cons] at hnd
      rcases List.mem_cons.mp h with h1 | h1
      · obtain ⟨hk, hv⟩ := Prod.mk.injEq .. ▸ h1
        simp [alGet, hk.symm, hv]
      · have hk : k' ≠ k := by
          intro hh
          subst hh
          exact hnd.1 (List.mem_map.mpr ⟨(k', v), h1, rfl⟩)
        simp [alGet, hk, ih hnd.2 h1]

theorem alGet_eq_none_iff {α : Type} {m : List (String × α)} {k : String} :
    alGet m k = none ↔ ∀ p ∈ m, p.1 ≠ k := by
  induction m with
  | nil => simp [alGet]
  | cons p t ih =>
      obtain ⟨k', v'⟩ := p
      by_cases hk : k' = k
      · subst hk
        simp [alGet]
      · simp [alGet, hk, ih]

theorem mem_alSet_elim {α : Type} {m : List (String × α)} {k : String} {v : α} {p : String × α}
    (h : p ∈ alSet m k v) : p = (k, v) ∨ p ∈ m := by
  induction m with
  | nil => simpa [alSet] using h
  | cons q t ih =>
      obtain ⟨k', v'⟩ := q
      by_cases hk : k' = k
      · simp [alSet, hk] at h
        rcases h with h | h
        · exact Or.inl (by simp [h])
        · exact Or.inr (List.mem_cons_of_mem _ h)
      · simp only [alSet, if_neg hk, List.mem_cons] at h
        rcases h with h | h
        · exact Or.inr (List.mem_cons.mpr (Or.inl h))
        · rcases ih h with h1 | h1
          · exact Or.inl h1
          · exact Or.inr (List.mem_cons_of_mem _ h1)

theorem mem_alSet_self {α : Type} (m : List (String × α)) (k : String) (v : α) :
    (k, v) ∈ alSet m k v := by
  induction m with
  | nil => simp [alSet]
  | cons q t ih =>
      obtain ⟨k', v'⟩ := q
      by_cases hk : k' = k
      · simp [alSet, hk]
      · simp only [alSet, if_neg hk, List.mem_cons]
        exact Or.inr ih

theorem mem_alSet_of_ne {α : Type} {m : List (String × α)} {p : String × α} (k : String) (v : α)
    (hp : p ∈ m) (hne : p.1 ≠ k) : p ∈ alSet m k v := by
  induction m with
  | nil => simp at hp
  | cons q t ih =>
      obtain ⟨k', v'⟩ := q
      rcases List.mem_cons.mp hp with h1 | h1
      · subst h1
        have hk : k' ≠ k := by simpa using hne
        simp [alSet, hk]
      · by_cases hk : k' = k
        · simp only [alSet, if_pos hk, List.mem_cons]
          exact Or.inr h1
        · simp only [alSet, if_neg hk, List.mem_cons]
          exact Or.inr (ih h1)

theorem mem_alDel_elim {α : Type} {m : List (String × α)} {k : String} {p : String × α}
    (h : p ∈ alDel m k) : p ∈ m ∧ p.1 ≠ k := by
  unfold alDel at h
  have h1 := List.mem_filter.mp h
  exact ⟨h1.1, by simpa using h1.2⟩

theorem mem_alDel_of {α : Type} {m : List (String × α)} {k : String} {p : String × α}
    (hp : p ∈ m) (hne : p.1 ≠ k) : p ∈ alDel m k :=
  List.mem_filter.mpr ⟨hp, by simpa using hne⟩

theorem keys_alSet_nodup {α : Type} {m : List (String × α)} (k : String) (v : α)
    (h : (m.map Prod.fst).Nodup) : ((alSet m k v).map Prod.fst).Nodup := by
  induction m with
  | nil => simp [alSet]
  | cons q t ih =>
      obtain ⟨k', v'⟩ := q
      simp only [List.map_cons, List.nodup_cons] at h
      by_cases hk : k' = k
      · subst hk
        have heq : alSet ((k', v') :: t) k' v = (k', v) :: t := by simp [alSet]
        rw [heq]
        simp only [List.map_cons, List.nodup_cons]
        exact ⟨h.1, h.2⟩
      · simp only [alSet, if_neg hk, List.map_cons, List.nodup_cons]
        refine ⟨fun hmem => ?_, ih h.2⟩
        rcases List.mem_map.mp hmem with ⟨p, hp, hfst⟩
        rcases mem_alSet_elim hp with h1 | h1
        · subst h1
          exact hk hfst.symm
        · exact h.1 (List.mem_map.mpr ⟨p, h1, hfst⟩)

theorem keys_alDel_nodup {α : Type} {m : List (String × α)} (k : String)
    (h : (m.map Prod.fst).Nodup) : ((alDel m k).map Prod.fst).Nodup := by
  unfold alDel
  exact List.Nodup.sublist (List.Sublist.map Prod.fst (List.filter_sublist m)) h

/-! ### List helper lemmas -/

theorem length_filter_ne_of_mem {l : List String} {a : String}
    (hnd : l.Nodup) (ha : a ∈ l) :
    (l.filter (fun x => x ≠ a)).length + 1 = l.length := by
  induction l with
  | nil => simp at ha
  | cons b t ih =>
      rw [List.filter_cons]
      rcases List.mem_cons.mp ha with h1 | h1
      · subst h1
        have hnotin : a ∉ t := (List.nodup_cons.mp hnd).1
        have hft : t.filter (fun x => x ≠ a) = t := by
          rw [List.filter_eq_self]
          intro x hx
          simp only [ne_eq, decide_eq_true_eq]
          intro hxa
          subst hxa
          exact hnotin hx
        rw [if_neg (by simp : ¬decide (a ≠ a) = true), hft, List.length_cons]
      · have hb : b ≠ a := by
          intro hh
          subst hh
          exact (List.nodup_cons.mp hnd).1 h1
        have ht := ih (List.nodup_cons.mp hnd).2 h1
        have hcond : decide (b ≠ a) = true := by simp [hb]
        rw [if_pos hcond, List.length_cons, List.length_cons]
        omega

theorem filter_ne_length_le {l : List String} (a : String) :
    (l.filter (fun x => x ≠ a)).length ≤ l.length :=
  List.length_filter_le _ _

/-! ### Structural characterization of leaveCurrentRoom -/

theorem leaveCurrentRoom_spec (st : ServerState) (c : String) :
    (alGet st.socketToRoom c = none ∧ leaveCurrentRoom st c = (st, [], none)) ∨
    (∃ cur, alGet st.socketToRoom c = some cur ∧
      ((alGet st.rooms cur = none ∧
         leaveCurrentRoom st c =
           ({ st with socketToRoom := alDel st.socketToRoom c }, [], some cur)) ∨
       (∃ mem, alGet st.rooms cur = some mem ∧
         leaveCurrentRoom st c =
           ({ rooms :=
                if (mem.filter (fun x => x ≠ c)).length = 0 then
                  alDel (alSet st.rooms cur (mem.filter (fun x => x ≠ c))) cur
                else alSet st.rooms cur (mem.filter (fun x => x ≠ c)),
              socketToRoom := alDel st.socketToRoom c,
              userProfiles := st.userProfiles },
            (mem.filter (fun x => x ≠ c)).map (fun other =>
              Event.userLeft other c cur (mem.filter (fun x => x ≠ c)).length),
            some cur)))) := by
  rcases h1 : alGet st.socketToRoom c with _ | cur
  · exact Or.inl ⟨rfl, by simp [leaveCurrentRoom, h1]⟩
  · refine Or.inr ⟨cur, rfl, ?_⟩
    rcases h2 : alGet st.rooms cur with _ | mem
    · exact Or.inl ⟨rfl, by simp [leaveCurrentRoom, h1, h2]⟩
    · refine Or.inr ⟨mem, rfl, ?_⟩
      simp only [leaveCurrentRoom, h1, h2, cleanupRoom, alGet_alSet_self]
      by_cases h3 : (mem.filter (fun x => x ≠ c)).length = 0
      · rw [if_pos h3, if_pos h3]
      · rw [if_neg h3, if_neg h3]

theorem keys_nodup_eq_of_mem {α : Type} {m : List (String × α)}
    (hnd : (m.map Prod.fst).Nodup) {p q : String × α} (hp : p ∈ m) (hq : q ∈ m)
    (hk : p.1 = q.1) : p = q := by
  have h1 : alGet m p.1 = some p.2 := alGet_eq_some_of_mem hnd hp
  have h2 : alGet m q.1 = some q.2 := alGet_eq_some_of_mem hnd hq
  rw [hk] at h1
  rw [h1] at h2
  obtain ⟨a, b⟩ := p
  obtain ⟨c, d⟩ := q
  simp at hk
  simp at h2
  simp [hk, h2]

theorem mem_alSet_elim_nodup {α : Type} {m : List (String × α)} {k : String} {v : α}
    {p : String × α} (hnd : (m.map Prod.fst).Nodup) (h : p ∈ alSet m k v) :
    p = (k, v) ∨ (p ∈ m ∧ p.1 ≠ k) := by
  induction m with
  | nil => simpa [alSet] using h
  | cons q t ih =>
      obtain ⟨k', v'⟩ := q
      simp only [List.map_cons, List.nodup_cons] at hnd
      by_cases hk : k' = k
      · subst hk
        have heq : alSet ((k', v') :: t) k' v = (k', v) :: t := by simp [alSet]
        rw [heq] at h
        rcases List.mem_cons.mp h with h1 | h1
        · exact Or.inl h1
        · refine Or.inr ⟨List.mem_cons_of_mem _ h1, fun hpk => ?_⟩
          exact hnd.1 (List.mem_map.mpr ⟨p, h1, hpk⟩)
      · simp only [alSet, if_neg hk, List.mem_cons] at h
        rcases h with h1 | h1
        · exact Or.inr ⟨List.mem_cons.mpr (Or.inl h1), by simp [h1, hk]⟩
        · rcases ih hnd.2 h1 with h2 | h2
          · exact Or.inl h2
          · exact Or.inr ⟨List.mem_cons_of_mem _ h2.1, h2.2⟩

theorem mem_filter_ne {l : List String} {s c : String} :
    s ∈ l.filter (fun x => x ≠ c) ↔ s ∈ l ∧ s ≠ c := by
  simp [List.mem_filter]

theorem not_mem_filter_ne (l : List String) (c : String) :
    c ∉ l.filter (fun x => x ≠ c) := by
  intro h
  exact (mem_filter_ne.mp h).2 rfl

/-! ### Invariant accessors -/

theorem Inv.roomVal {st : ServerState} (h : Inv st) {r : String} {mem : List String}
    (hr : alGet st.rooms r = some mem) : mem.Nodup ∧ mem.length ≤ 2 ∧ r ≠ "" :=
  h.2.2.1 (r, mem) (mem_of_alGet_eq_some hr)

theorem Inv.memToRoom {st : ServerState} (h : Inv st) {r s : String} {mem : List String}
    (hr : alGet st.rooms r = some mem) (hs : s ∈ mem) :
    alGet st.socketToRoom s = some r :=
  h.2.2.2.2 (r, mem) (mem_of_alGet_eq_some hr) s hs

theorem Inv.roomToMem {st : ServerState} (h : Inv st) {s r : String}
    (hs : alGet st.socketToRoom s = some r) :
    ∃ mem, alGet st.rooms r = some mem ∧ s ∈ mem := by
  obtain ⟨q, hq, hk, hmem⟩ := h.2.2.2.1 (s, r) (mem_of_alGet_eq_some hs)
  refine ⟨q.2, ?_, hmem⟩
  have hk' : q.1 = r := hk
  rw [← hk']
  exact alGet_eq_some_of_mem h.1 hq

/-- A state with the same rooms and socketToRoom satisfies the same invariant:
`Inv` does not look at `userProfiles`. -/
theorem Inv_profiles_irrelevant {st : ServerState} (ps : List (String × Profile))
    (h : Inv st) : Inv { st with userProfiles := ps } :=
  h

/-! ### leaveCurrentRoom preserves the invariant -/

/-- The membership structure of the room table after `leaveCurrentRoom` in the
case where the socket was in room `cur` with member set `mem`. -/
theorem leave_rooms_mem_elim {st : ServerState} {cur : String} {mem : List String}
    (hA : (st.rooms.map Prod.fst).Nodup) (h2 : alGet st.rooms cur = some mem)
    {p : String × List String} {c : String}
    (hp : p ∈ (if (mem.filter (fun x => x ≠ c)).length = 0 then
        alDel (alSet st.rooms cur (mem.filter (fun x => x ≠ c))) cur
      else alSet st.rooms cur (mem.filter (fun x => x ≠ c)))) :
    (p = (cur, mem.filter (fun x => x ≠ c)) ∧ (mem.filter (fun x => x ≠ c)).length ≠ 0) ∨
    (p ∈ st.rooms ∧ p.1 ≠ cur) := by
  by_cases h3 : (mem.filter (fun x => x ≠ c)).length = 0
  · rw [if_pos h3] at hp
    obtain ⟨hp1, hp2⟩ := mem_alDel_elim hp
    rcases mem_alSet_elim_nodup hA hp1 with h4 | h4
    · exact absurd (by rw [h4]) hp2
    · exact Or.inr h4
  · rw [if_neg h3] at hp
    rcases mem_alSet_elim_nodup hA hp with h4 | h4
    · exact Or.inl ⟨h4, h3⟩
    · exact Or.inr h4

theorem Inv_leaveCurrentRoom {st : ServerState} (c : String) (h : Inv st) :
    Inv (leaveCurrentRoom st c).1 := by
  rcases leaveCurrentRoom_spec st c with ⟨h1, heq⟩ | ⟨cur, h1, ⟨h2, heq⟩ | ⟨mem, h2, heq⟩⟩
  · rw [heq]
    exact h
  · rw [heq]
    obtain ⟨hA, hB, hC, hD, hE⟩ := h
    refine ⟨hA, keys_alDel_nodup _ hB, hC, ?_, ?_⟩
    · intro p hp
      exact hD p (mem_alDel_elim hp).1
    · intro q hq s hs
      have hsr := hE q hq s hs
      have hsc : s ≠ c := by
        intro hh
        subst hh
        rw [h1] at hsr
        have hcur : q.1 = cur := by simpa using hsr.symm
        have : alGet st.rooms cur = some q.2 := by
          rw [← hcur]
          exact alGet_eq_some_of_mem hA hq
        rw [h2] at this
        cases this
      rw [alGet_alDel_ne _ _ _ hsc]
      exact hsr
  · rw [heq]
    obtain ⟨hA, hB, hC, hD, hE⟩ := h
    have hcurmem : (cur, mem) ∈ st.rooms := mem_of_alGet_eq_some h2
    have hRnodup : (((if (mem.filter (fun x => x ≠ c)).length = 0 then
        alDel (alSet st.rooms cur (mem.filter (fun x => x ≠ c))) cur
      else alSet st.rooms cur (mem.filter (fun x => x ≠ c)))).map Prod.fst).Nodup := by
      by_cases h3 : (mem.filter (fun x => x ≠ c)).length = 0
      · rw [if_pos h3]
        exact keys_alDel_nodup _ (keys_alSet_nodup _ _ hA)
      · rw [if_neg h3]
        exact keys_alSet_nodup _ _ hA
    refine ⟨hRnodup, keys_alDel_nodup _ hB, ?_, ?_, ?_⟩
    · intro p hp
      rcases leave_rooms_mem_elim hA h2 hp with ⟨hpe, _⟩ | ⟨hpm, _⟩
      · obtain ⟨hnd, hlen, hne⟩ := hC (cur, mem) hcurmem
        rw [hpe]
        refine ⟨hnd.filter _, le_trans (filter_ne_length_le c) hlen, hne⟩
      · exact hC p hpm
    · intro p hp
      obtain ⟨hp1, hp2⟩ := mem_alDel_elim hp
      obtain ⟨q, hq, hqk, hqm⟩ := hD p hp1
      by_cases hqc : q.1 = cur
      · have hqmem : q.2 = mem := by
          have : alGet st.rooms cur = some q.2 := by
            rw [← hqc]
            exact alGet_eq_some_of_mem hA hq
          rw [h2] at this
          simpa using this.symm
        have hpf : p.1 ∈ mem.filter (fun x => x ≠ c) :=
          mem_filter_ne.mpr ⟨hqmem ▸ hqm, hp2⟩
        have h3 : (mem.filter (fun x => x ≠ c)).length ≠ 0 := by
          intro hh
          rw [List.length_eq_zero] at hh
          rw [hh] at hpf
          cases hpf
        refine ⟨(cur, mem.filter (fun x => x ≠ c)), ?_, by rw [← hqk, hqc], hpf⟩
        rw [if_neg h3]
        exact mem_alSet_self _ _ _
      · refine ⟨q, ?_, hqk, hqm⟩
        by_cases h3 : (mem.filter (fun x => x ≠ c)).length = 0
        · rw [if_pos h3]
          exact mem_alDel_of (mem_alSet_of_ne _ _ hq hqc) hqc
        · rw [if_neg h3]
          exact mem_alSet_of_ne _ _ hq hqc
    · intro q hq s hs
      rcases leave_rooms_mem_elim hA h2 hq with ⟨hqe, _⟩ | ⟨hqm, hqc⟩
      · rw [hqe] at hs
        obtain ⟨hsm, hsc⟩ := mem_filter_ne.mp hs
        rw [hqe]
        rw [alGet_alDel_ne _ _ _ hsc]
        exact hE (cur, mem) hcurmem s hsm
      · have hsr := hE q hqm s hs
        have hsc : s ≠ c := by
          intro hh
          subst hh
          rw [h1] at hsr
          exact hqc (by simpa using hsr.symm)
        rw [alGet_alDel_ne _ _ _ hsc]
        exact hsr

/-- After `leaveCurrentRoom st c`, no room contains `c`. -/
theorem leaveCurrentRoom_not_mem {st : ServerState} (c : String) (h : Inv st) :
    ∀ p ∈ (leaveCurrentRoom st c).1.rooms, c ∉ p.2 := by
  rcases leaveCurrentRoom_spec st c with ⟨h1, heq⟩ | ⟨cur, h1, ⟨h2, heq⟩ | ⟨mem, h2, heq⟩⟩
  · rw [heq]
    intro p hp hc
    have := h.2.2.2.2 p hp c hc
    rw [h1] at this
    cases this
  · rw [heq]
    intro p hp hc
    have hsr := h.2.2.2.2 p hp c hc
    rw [h1] at hsr
    have hcur : p.1 = cur := by simpa using hsr.symm
    have : alGet st.rooms cur = some p.2 := by
      rw [← hcur]
      exact alGet_eq_some_of_mem h.1 hp
    rw [h2] at this
    cases this
  · rw [heq]
    intro p hp hc
    rcases leave_rooms_mem_elim h.1 h2 hp with ⟨hpe, _⟩ | ⟨hpm, hpc⟩
    · rw [hpe] at hc
      exact not_mem_filter_ne mem c hc
    · have hsr := h.2.2.2.2 p hpm c hc
      rw [h1] at hsr
      exact hpc (by simpa using hsr.symm)

/-- After `leaveCurrentRoom st c`, the socket `c` has no socketToRoom entry. -/
theorem leaveCurrentRoom_str_self (st : ServerState) (c : String) :
    alGet (leaveCurrentRoom st c).1.socketToRoom c = none := by
  rcases leaveCurrentRoom_spec st c with ⟨h1, heq⟩ | ⟨cur, h1, ⟨h2, heq⟩ | ⟨mem, h2, heq⟩⟩
  · rw [heq]
    exact h1
  · rw [heq]
    exact alGet_alDel_self _ _
  · rw [heq]
    exact alGet_alDel_self _ _

/-- `leaveCurrentRoom` does not touch `userProfiles`. -/
theorem leaveCurrentRoom_userProfiles (st : ServerState) (c : String) :
    (leaveCurrentRoom st c).1.userProfiles = st.userProfiles := by
  rcases leaveCurrentRoom_spec st c with ⟨h1, heq⟩ | ⟨cur, h1, ⟨h2, heq⟩ | ⟨mem, h2, heq⟩⟩ <;>
    rw [heq]

/-! ### roomJoin preserves the invariant -/

theorem joinProceed_state (st : ServerState) (now : Nat) (c clean : String) :
    (joinProceed st now c clean).1.rooms =
      alSet (if (alGet (leaveCurrentRoom st c).1.rooms clean).isSome
             then (leaveCurrentRoom st c).1.rooms
             else alSet (leaveCurrentRoom st c).1.rooms clean []) clean
        (setAdd ((alGet (leaveCurrentRoom st c).1.rooms clean).getD []) c) ∧
    (joinProceed st now c clean).1.socketToRoom =
      alSet (leaveCurrentRoom st c).1.socketToRoom c clean := by
  unfold joinProceed
  rcases h : alGet (leaveCurrentRoom st c).1.rooms clean with _ | l0 <;>
    rcases hp : alGet (leaveCurrentRoom st c).1.userProfiles c with _ | prof <;>
      simp [h, hp]

/-- When the capacity check passed, the target room holds at most one member
once the joiner has left its current room. -/
theorem leave_target_small {st : ServerState} (h : Inv st) {c clean : String}
    (hfull : roomFull st c clean = false) :
    ((alGet (leaveCurrentRoom st c).1.rooms clean).getD []).length ≤ 1 := by
  have hcap : ∀ ex, alGet st.rooms clean = some ex → ex.length ≤ 1 ∨ c ∈ ex := by
    intro ex hex
    unfold roomFull at hfull
    rw [hex] at hfull
    rcases Bool.and_eq_false_iff.mp hfull with h4 | h4
    · left
      have := of_decide_eq_false h4
      omega
    · right
      have hcon : ex.contains c = true := by simpa using h4
      simpa using hcon
  rcases leaveCurrentRoom_spec st c with ⟨h1, heq⟩ | ⟨cur, h1, ⟨h2, heq⟩ | ⟨mem, h2, heq⟩⟩
  · rw [heq]
    rcases hex : alGet st.rooms clean with _ | ex
    · simp
    · rcases hcap ex hex with h4 | h4
      · simpa using h4
      · have := h.memToRoom hex h4
        rw [h1] at this
        cases this
  · rw [heq]
    rcases hex : alGet st.rooms clean with _ | ex
    · simp
    · rcases hcap ex hex with h4 | h4
      · simpa using h4
      · have := h.memToRoom hex h4
        rw [h1] at this
        have hcc : clean = cur := (by simpa using this : cur = clean).symm
        rw [← hcc, hex] at h2
        cases h2
  · rw [heq]
    by_cases hcc : clean = cur
    · subst hcc
      by_cases h3 : (mem.filter (fun x => x ≠ c)).length = 0
      · simp only [if_pos h3, alGet_alDel_self]
        simp
      · simp only [if_neg h3, alGet_alSet_self, Option.getD_some]
        rcases hcap mem h2 with h4 | h4
        · exact le_trans (filter_ne_length_le c) h4
        · have hnd := (h.roomVal h2).1
          have hlen := (h.roomVal h2).2.1
          have := length_filter_ne_of_mem hnd h4
          omega
    · have hsame : alGet (if (mem.filter (fun x => x ≠ c)).length = 0 then
          alDel (alSet st.rooms cur (mem.filter (fun x => x ≠ c))) cur
        else alSet st.rooms cur (mem.filter (fun x => x ≠ c))) clean =
          alGet st.rooms clean := by
        by_cases h3 : (mem.filter (fun x => x ≠ c)).length = 0
        · rw [if_pos h3, alGet_alDel_ne _ _ _ hcc, alGet_alSet_ne _ _ _ _ hcc]
        · rw [if_neg h3, alGet_alSet_ne _ _ _ _ hcc]
      simp only [hsame]
      rcases hex : alGet st.rooms clean with _ | ex
      · simp
      · rcases hcap ex hex with h4 | h4
        · simpa using h4
        · have := h.memToRoom hex h4
          rw [h1] at this
          exact absurd (by simpa using this : cur = clean).symm hcc

theorem Inv_joinProceed {st : ServerState} (h : Inv st) (now : Nat) (c clean : String)
    (hclean : clean ≠ "") (hfull : roomFull st c clean = false) :
    Inv (joinProceed st now c clean).1 := by
  obtain ⟨hrooms, hstr⟩ := joinProceed_state st now c clean
  have hL : Inv (leaveCurrentRoom st c).1 := Inv_leaveCurrentRoom c h
  obtain ⟨hA, hB, hC, hD, hE⟩ := hL
  have hstrc : alGet (leaveCurrentRoom st c).1.socketToRoom c = none :=
    leaveCurrentRoom_str_self st c
  have hnomem : ∀ p ∈ (leaveCurrentRoom st c).1.rooms, c ∉ p.2 :=
    leaveCurrentRoom_not_mem c h
  set L := (leaveCurrentRoom st c).1 with hLdef
  set l0 : List String := (alGet L.rooms clean).getD [] with hl0
  set R3 : List (String × List String) :=
    if (alGet L.rooms clean).isSome then L.rooms else alSet L.rooms clean [] with hR3
  have hR3nodup : (R3.map Prod.fst).Nodup := by
    rw [hR3]
    rcases alGet L.rooms clean with _ | v
    · simpa using keys_alSet_nodup clean [] hA
    · simpa using hA
  have hR3get : alGet R3 clean = some l0 := by
    rw [hR3, hl0]
    rcases hg : alGet L.rooms clean with _ | v
    · simp [hg, alGet_alSet_self]
    · simp [hg]
  have hR3elim : ∀ p ∈ R3, p = (clean, ([] : List String)) ∨ p ∈ L.rooms := by
    intro p hp
    rw [hR3] at hp
    rcases hg : alGet L.rooms clean with _ | v
    · rw [hg] at hp
      simp only [Option.isSome_none, Bool.false_eq_true, if_false] at hp
      exact mem_alSet_elim hp
    · rw [hg] at hp
      simp only [Option.isSome_some, if_true] at hp
      exact Or.inr hp
  have hc0 : c ∉ l0 := by
    rw [hl0]
    rcases hg : alGet L.rooms clean with _ | v
    · simp
    · simpa using hnomem (clean, v) (mem_of_alGet_eq_some hg)
  have hroomeq : setAdd l0 c = l0 ++ [c] := by
    rw [setAdd, if_neg hc0]
  have hl0nodup : l0.Nodup := by
    rw [hl0]
    rcases hg : alGet L.rooms clean with _ | v
    · simp
    · simpa using (hC (clean, v) (mem_of_alGet_eq_some hg)).1
  have hl0len : l0.length ≤ 1 := leave_target_small h hfull
  have hroomnodup : (setAdd l0 c).Nodup := by
    rw [hroomeq, List.nodup_append]
    refine ⟨hl0nodup, List.nodup_singleton c, ?_⟩
    intro a ha hac
    rw [List.mem_singleton] at hac
    exact hc0 (hac ▸ ha)
  have hroomlen : (setAdd l0 c).length ≤ 2 := by
    rw [hroomeq, List.length_append, List.length_singleton]
    omega
  have hcroom : c ∈ setAdd l0 c := by
    rw [hroomeq]
    exact List.mem_append_right _ (List.mem_singleton_self c)
  have hl0mem : ∀ s ∈ l0, alGet L.socketToRoom s = some clean := by
    intro s hs
    rw [hl0] at hs
    rcases hg : alGet L.rooms clean with _ | v
    · rw [hg] at hs
      cases hs
    · rw [hg] at hs
      exact hE (clean, v) (mem_of_alGet_eq_some hg) s hs
  refine ⟨?_, ?_, ?_, ?_, ?_⟩
  · rw [hrooms]
    exact keys_alSet_nodup _ _ hR3nodup
  · rw [hstr]
    exact keys_alSet_nodup _ _ hB
  · rw [hrooms]
    intro p hp
    rcases mem_alSet_elim_nodup hR3nodup hp with h4 | ⟨h4, h5⟩
    · rw [h4]
      exact ⟨hroomnodup, hroomlen, hclean⟩
    · rcases hR3elim p h4 with h6 | h6
      · rw [h6]
        exact ⟨List.nodup_nil, by simp, hclean⟩
      · exact hC p h6
  · rw [hstr, hrooms]
    intro p hp
    rcases mem_alSet_elim_nodup hB hp with h4 | ⟨h4, h5⟩
    · rw [h4]
      exact ⟨(clean, setAdd l0 c), mem_alSet_self _ _ _, rfl, hcroom⟩
    · obtain ⟨q, hq, hqk, hqm⟩ := hD p h4
      by_cases hqc : q.1 = clean
      · have hqv : alGet L.rooms clean = some q.2 := by
          rw [← hqc]
          exact alGet_eq_some_of_mem hA hq
        have hql0 : q.2 = l0 := by
          rw [hl0, hqv]
          rfl
        refine ⟨(clean, setAdd l0 c), mem_alSet_self _ _ _, by rw [← hqk, hqc], ?_⟩
        rw [hroomeq]
        exact List.mem_append_left _ (hql0 ▸ hqm)
      · have hq3 : q ∈ R3 := by
          rw [hR3]
          rcases alGet L.rooms clean with _ | v
          · simpa using mem_alSet_of_ne _ _ hq hqc
          · simpa using hq
        exact ⟨q, mem_alSet_of_ne _ _ hq3 hqc, hqk, hqm⟩
  · rw [hstr, hrooms]
    intro q hq s hs
    rcases mem_alSet_elim_nodup hR3nodup hq with h4 | ⟨h4, h5⟩
    · rw [h4] at hs ⊢
      rw [hroomeq] at hs
      rcases List.mem_append.mp hs with h6 | h6
      · have hsc : s ≠ c := by
          intro hh
          exact hc0 (hh ▸ h6)
        rw [alGet_alSet_ne _ _ _ _ hsc]
        exact hl0mem s h6
      · rw [List.mem_singleton] at h6
        subst h6
        exact alGet_alSet_self _ _ _
    · rcases hR3elim q h4 with h6 | h6
      · rw [h6] at hs
        cases hs
      · have hsr := hE q h6 s hs
        have hsc : s ≠ c := by
          intro hh
          subst hh
          rw [hstrc] at hsr
          cases hsr
        rw [alGet_alSet_ne _ _ _ _ hsc]
        exact hsr

theorem cleanRoomId_ne_empty {s : String} (h : jsTrim s.data ≠ []) :
    cleanRoomId s ≠ "" := by
  unfold cleanRoomId
  intro hh
  have hdata : jsLower (jsTrim s.data) = [] := congrArg String.data hh
  unfold jsLower at hdata
  exact h (List.map_eq_nil_iff.mp hdata)

theorem roomJoin_invalid_none (st : ServerState) (now : Nat) (c : String) :
    roomJoin st now c none = (st, [Event.errorEvt c "Invalid room ID"]) := rfl

theorem roomJoin_invalid_empty (st : ServerState) (now : Nat) (c : String) {rid : String}
    (h : jsTrim rid.data = []) :
    roomJoin st now c (some rid) = (st, [Event.errorEvt c "Invalid room ID"]) := by
  simp [roomJoin, h]

theorem roomJoin_full_eq (st : ServerState) (now : Nat) (c : String) {rid : String}
    (htrim : jsTrim rid.data ≠ []) (hfull : roomFull st c (cleanRoomId rid) = true) :
    roomJoin st now c (some rid) = (st, [Event.errorEvt c "Room is full"]) := by
  simp [roomJoin, htrim, hfull]

theorem roomJoin_proceed_eq (st : ServerState) (now : Nat) (c : String) {rid : String}
    (htrim : jsTrim rid.data ≠ []) (hfull : roomFull st c (cleanRoomId rid) = false) :
    roomJoin st now c (some rid) = joinProceed st now c (cleanRoomId rid) := by
  simp [roomJoin, htrim, hfull]

theorem Inv_roomJoin {st : ServerState} (h : Inv st) (now : Nat) (c : String)
    (rid : Option String) : Inv (roomJoin st now c rid).1 := by
  rcases rid with _ | rid
  · rw [roomJoin_invalid_none]
    exact h
  · by_cases htrim : jsTrim rid.data = []
    · rw [roomJoin_invalid_empty st now c htrim]
      exact h
    · by_cases hfull : roomFull st c (cleanRoomId rid) = true
      · rw [roomJoin_full_eq st now c htrim hfull]
        exact h
      · rw [roomJoin_proceed_eq st now c htrim (Bool.not_eq_true _ ▸ hfull)]
        exact Inv_joinProceed h now c (cleanRoomId rid) (cleanRoomId_ne_empty htrim)
          (Bool.not_eq_true _ ▸ hfull)

/-- A sequence of room:join operations, applied in order. -/
def applyJoins (st : ServerState) : List (Nat × String × Option String) → ServerState
  | [] => st
  | (now, c, rid) :: ops => applyJoins (roomJoin st now c rid).1 ops

theorem Inv_applyJoins {st : ServerState} (h : Inv st)
    (ops : List (Nat × String × Option String)) : Inv (applyJoins st ops) := by
  induction ops generalizing st with
  | nil => exact h
  | cons op rest ih =>
      obtain ⟨now, c, rid⟩ := op
      exact ih (Inv_roomJoin h now c rid)

/-! ### Claim C1 -/

/-- C1: starting from any state satisfying the server invariant, no sequence of
room:join operations ever produces a room with more than 2 members; and a join
attempt by a connection `c` into a room that already has 2 members, `c` not
among them, is rejected with the "Room is full" error and leaves the entire
state (hence the membership of every room) unchanged. -/
theorem c1_room_capacity (st : ServerState) (hInv : Inv st) :
    (∀ ops r mem, alGet (applyJoins st ops).rooms r = some mem → mem.length ≤ 2) ∧
    (∀ now c rid mem, jsTrim rid.data ≠ [] →
      alGet st.rooms (cleanRoomId rid) = some mem → 2 ≤ mem.length → c ∉ mem →
      roomJoin st now c (some rid) = (st, [Event.errorEvt c "Room is full"])) := by
  constructor
  · intro ops r mem hmem
    exact ((Inv_applyJoins hInv ops).roomVal hmem).2.1
  · intro now c rid mem htrim hmem hlen hc
    refine roomJoin_full_eq st now c htrim ?_
    unfold roomFull
    rw [hmem]
    show (decide (2 ≤ mem.length) && !mem.contains c) = true
    have h1 : decide (2 ≤ mem.length) = true := by simpa using hlen
    have h2 : mem.contains c = false := by simpa using hc
    rw [h1, h2]
    rfl

/-- The capacity-two state used to exercise the RoomFull rejection: room "a"
holds c1 alone, room "b" is full with x and y. -/
def stTwoFull : ServerState :=
  { rooms := [("a", ["c1"]), ("b", ["x", "y"])]
    socketToRoom := [("c1", "a"), ("x", "b"), ("y", "b")]
    userProfiles := [] }

theorem c1_room_capacity_witness :
    Inv stTwoFull ∧
      roomJoin stTwoFull 0 "c1" (some "b") =
        (stTwoFull, [Event.errorEvt "c1" "Room is full"]) :=
  ⟨by decide,
    (c1_room_capacity stTwoFull (by decide)).2 0 "c1" "b" ["x", "y"]
      (by decide) (by decide) (by decide) (by decide)⟩

/-! ### Claim C2 -/

/-- C2: for an outgoing:call message with destination and offer present, if the
sender and the destination are both members of one room the offer is forwarded
to the destination as incoming:call tagged with the sender's id; if they are
not members of a common room the sender gets the "Users are not in the same
room" error and nothing is sent to the destination. -/
theorem c2_outgoing_call_colocation (st : ServerState) (hInv : Inv st) (now : Nat)
    (s d off : String) (cf : Option String) (hd : d ≠ "") (hoff : off ≠ "") :
    ((∃ r mem, alGet st.rooms r = some mem ∧ s ∈ mem ∧ d ∈ mem) →
      outgoingCall st now s (some d) (some off) cf =
        (st, [Event.incomingCall d s off now])) ∧
    (¬(∃ r mem, alGet st.rooms r = some mem ∧ s ∈ mem ∧ d ∈ mem) →
      outgoingCall st now s (some d) (some off) cf =
        (st, [Event.errorEvt s "Users are not in the same room"])) := by
  constructor
  · rintro ⟨r, mem, hr, hs, hdm⟩
    have hcs := hInv.memToRoom hr hs
    have hcd := hInv.memToRoom hr hdm
    have hrne : r ≠ "" := (hInv.roomVal hr).2.2
    simp [outgoingCall, jsFalsy, hcs, hcd, String.isEmpty_iff, hd, hoff, hrne]
  · intro hnc
    rcases hcs : alGet st.socketToRoom s with _ | r
    · simp [outgoingCall, jsFalsy, hcs, String.isEmpty_iff, hd, hoff]
    · obtain ⟨mem, hr, hsm⟩ := hInv.roomToMem hcs
      have hrne : r ≠ "" := (hInv.roomVal hr).2.2
      have hdiff : alGet st.socketToRoom d ≠ some r := by
        intro hh
        obtain ⟨mem', hr', hdm⟩ := hInv.roomToMem hh
        rw [hr] at hr'
        have hmm : mem = mem' := by simpa using hr'
        exact hnc ⟨r, mem, hr, hsm, hmm ▸ hdm⟩
      simp [outgoingCall, jsFalsy, hcs, String.isEmpty_iff, hd, hoff, hrne,
        Ne.symm hdiff]

theorem c2_outgoing_call_colocation_witness :
    Inv stTwoFull ∧
      outgoingCall stTwoFull 7 "x" (some "y") (some "o") none =
        (stTwoFull, [Event.incomingCall "y" "x" "o" 7]) :=
  ⟨by decide,
    (c2_outgoing_call_colocation stTwoFull (by decide) 7 "x" "y" "o" none
        (by decide) (by decide)).1 ⟨"b", ["x", "y"], by decide, by decide, by decide⟩⟩

/-! ### Claim C3 -/

/-- Two sockets in different rooms: a in r1, b in r2. -/
def stCrossRooms : ServerState :=
  { rooms := [("r1", ["a"]), ("r2", ["b"])]
    socketToRoom := [("a", "r1"), ("b", "r2")]
    userProfiles := [] }

/-- C3 counterexample: a call:accepted from "a" to "b", who are in different
rooms, is forwarded to "b" anyway and no error of any kind is sent to "a" —
the call:accepted handler performs no colocation check at all, contradicting
the claim that the answer is not forwarded and a PeersNotColocated error is
emitted. -/
theorem c3_counterexample :
    callAccepted stCrossRooms 7 "a" (some "b") (some "ans") none =
      (stCrossRooms, [Event.callAcceptedEvt "b" "a" "ans" 7]) := by
  decide

/-- C3 amended: call:accepted checks only that destination and answer are
present: with both present it forwards the answer to the destination tagged
with the sender's id and performs no colocation check (no PeersNotColocated
error exists for call:accepted); with either missing it emits the "Invalid
answer parameters" error and forwards nothing. -/
theorem c3_call_accepted_no_colocation_check (st : ServerState) (now : Nat)
    (s d ans : String) (cf : Option String) (hd : d ≠ "") (hans : ans ≠ "") :
    callAccepted st now s (some d) (some ans) cf =
      (st, [Event.callAcceptedEvt d s ans now]) ∧
    (∀ toD answer : Option String, (jsFalsy toD || jsFalsy answer) = true →
      callAccepted st now s toD answer cf =
        (st, [Event.errorEvt s "Invalid answer parameters"])) := by
  constructor
  · simp [callAccepted, jsFalsy, String.isEmpty_iff, hd, hans]
  · intro toD answer hmiss
    unfold callAccepted
    rw [if_pos hmiss]

theorem c3_call_accepted_no_colocation_check_witness :
    ("b" : String) ≠ "" ∧
      callAccepted stCrossRooms 9 "a" (some "b") (some "z") none =
        (stCrossRooms, [Event.callAcceptedEvt "b" "a" "z" 9]) :=
  ⟨by decide,
    (c3_call_accepted_no_colocation_check stCrossRooms 9 "a" "b" "z" none
        (by decide) (by decide)).1⟩

/-! ### Claim C4 -/

/-- C4 counterexample: connection c1 is a member of room "a"; room "b" is full
with x and y.  c1's join of "b" is rejected with "Room is full", and c1 is
still a member of its previous room "a" afterwards — the implicit leave did
not run before the capacity check, contradicting the claim. -/
theorem c4_counterexample :
    (roomJoin stTwoFull 0 "c1" (some "b")).2 = [Event.errorEvt "c1" "Room is full"] ∧
      alGet (roomJoin stTwoFull 0 "c1" (some "b")).1.rooms "a" = some ["c1"] ∧
      alGet (roomJoin stTwoFull 0 "c1" (some "b")).1.socketToRoom "c1" = some "a" := by
  decide

/-- C4 amended: in room:join the RoomFull capacity check is evaluated before
the implicit leave of the current room; consequently a join rejected with
RoomFull leaves the whole state unchanged — the joiner is still a member of
its previous room.  Only when the join proceeds does the handler run
`leaveCurrentRoom` first. -/
theorem c4_capacity_check_before_leave (st : ServerState) (now : Nat)
    (c rid : String) (htrim : jsTrim rid.data ≠ [])
    (hfull : roomFull st c (cleanRoomId rid) = true) :
    roomJoin st now c (some rid) = (st, [Event.errorEvt c "Room is full"]) ∧
    (∀ r mem, alGet st.rooms r = some mem →
      alGet (roomJoin st now c (some rid)).1.rooms r = some mem) := by
  have heq := roomJoin_full_eq st now c htrim hfull
  refine ⟨heq, ?_⟩
  intro r mem hmem
  rw [heq]
  exact hmem

theorem c4_capacity_check_before_leave_witness :
    jsTrim ("b" : String).data ≠ [] ∧
      roomJoin stTwoFull 3 "c1" (some "b") =
        (stTwoFull, [Event.errorEvt "c1" "Room is full"]) :=
  ⟨by decide,
    (c4_capacity_check_before_leave stTwoFull 3 "c1" "b" (by decide) (by decide)).1⟩

/-! ### Claim C5 -/

/-- A 2-member room: a and b both in room r. -/
def stPair : ServerState :=
  { rooms := [("r", ["a", "b"])]
    socketToRoom := [("a", "r"), ("b", "r")]
    userProfiles := [("a", { connectedAt := 0, lastActivity := 0, currentRoom := some "r" }),
                     ("b", { connectedAt := 0, lastActivity := 0, currentRoom := some "r" })] }

/-- C5 counterexample: when "a" disconnects from the 2-member room "r", the
remaining member "b" receives BOTH a user:left (emitted inside
leaveCurrentRoom) and a user:disconnected (emitted by the disconnect handler)
— two departure notifications, contradicting the claim of exactly one. -/
theorem c5_counterexample :
    (handleDisconnect stPair 99 "a" "transport close").2 =
      [Event.userLeft "b" "a" "r" 1,
       Event.userDisconnected "b" "a" "r" "transport close" 99] := by
  decide

/-- The one-step effect of leaving a 2-member room, shared by the explicit
leave and the disconnect path. -/
theorem leave_pair_eq {st : ServerState} (hInv : Inv st) {r c p : String}
    {mem : List String} (hr : alGet st.rooms r = some mem)
    (hmem : mem = [c, p] ∨ mem = [p, c]) (hne : p ≠ c) :
    leaveCurrentRoom st c =
      ({ rooms := alSet st.rooms r [p]
         socketToRoom := alDel st.socketToRoom c
         userProfiles := st.userProfiles },
       [Event.userLeft p c r 1], some r) := by
  have hcm : c ∈ mem := by
    rcases hmem with h | h <;> simp [h]
  have hstr : alGet st.socketToRoom c = some r := hInv.memToRoom hr hcm
  have hfil : mem.filter (fun x => x ≠ c) = [p] := by
    rcases hmem with h | h <;>
      simp [h, hne]
  rcases leaveCurrentRoom_spec st c with ⟨h1, _⟩ | ⟨cur, h1, ⟨h2, _⟩ | ⟨mem', h2, heq⟩⟩
  · rw [hstr] at h1
    cases h1
  · rw [hstr] at h1
    have hcur : cur = r := by simpa using h1.symm
    rw [hcur, hr] at h2
    cases h2
  · rw [hstr] at h1
    have hcur : cur = r := by simpa using h1.symm
    subst hcur
    rw [hr] at h2
    have hmm : mem' = mem := by simpa using h2.symm
    subst hmm
    rw [hfil] at heq
    simpa using heq

/-- C5 amended: after a connection leaves a 2-member room via the explicit
leave path (leaveCurrentRoom, as run by a room switch), the remaining member
receives exactly one user:left notification; after a disconnect from a
2-member room the remaining member receives a user:left followed by a
user:disconnected (two notifications, not one).  In both cases the room
persists with the single remaining member, and when the last member of a
solo room leaves or disconnects, the room entry is deleted from the room
table and no longer appears in lookups. -/
theorem c5_departure_notifications (st : ServerState) (hInv : Inv st)
    (r c p : String) (mem : List String) (now : Nat) (reason : String)
    (hr : alGet st.rooms r = some mem) (hmem : mem = [c, p] ∨ mem = [p, c])
    (hne : p ≠ c) :
    ((leaveCurrentRoom st c).2.1 = [Event.userLeft p c r 1] ∧
      alGet (leaveCurrentRoom st c).1.rooms r = some [p]) ∧
    ((handleDisconnect st now c reason).2 =
        [Event.userLeft p c r 1, Event.userDisconnected p c r reason now] ∧
      alGet (handleDisconnect st now c reason).1.rooms r = some [p]) ∧
    (∀ r' c' : String, alGet st.rooms r' = some [c'] →
      alGet (leaveCurrentRoom st c').1.rooms r' = none ∧
        alGet (handleDisconnect st now c' reason).1.rooms r' = none) := by
  have hleave := leave_pair_eq hInv hr hmem hne
  have hsolo : ∀ r' c' : String, alGet st.rooms r' = some [c'] →
      leaveCurrentRoom st c' =
        ({ rooms := alDel (alSet st.rooms r' []) r'
           socketToRoom := alDel st.socketToRoom c'
           userProfiles := st.userProfiles }, [], some r') := by
    intro r' c' hr'
    have hstr' : alGet st.socketToRoom c' = some r' :=
      hInv.memToRoom hr' (by simp)
    rcases leaveCurrentRoom_spec st c' with ⟨h1, _⟩ | ⟨cur, h1, ⟨h2, _⟩ | ⟨mem', h2, heq⟩⟩
    · rw [hstr'] at h1
      cases h1
    · rw [hstr'] at h1
      have hcur : cur = r' := by simpa using h1.symm
      rw [hcur, hr'] at h2
      cases h2
    · rw [hstr'] at h1
      have hcur : cur = r' := by simpa using h1.symm
      subst hcur
      rw [hr'] at h2
      have hmm : mem' = [c'] := by simpa using h2.symm
      subst hmm
      simpa using heq
  refine ⟨⟨by rw [hleave], by rw [hleave]; simp⟩,
    ⟨?_, ?_⟩, ?_⟩
  · unfold handleDisconnect
    rw [hleave]
    simp [alGet_alSet_self]
  · unfold handleDisconnect
    rw [hleave]
    simp
  · intro r' c' hr'
    constructor
    · rw [hsolo r' c' hr']
      simp
    · unfold handleDisconnect
      rw [hsolo r' c' hr']
      simp

theorem c5_departure_notifications_witness :
    Inv stPair ∧
      ((handleDisconnect stPair 5 "a" "ping timeout").2 =
        [Event.userLeft "b" "a" "r" 1,
         Event.userDisconnected "b" "a" "r" "ping timeout" 5] ∧
      alGet (handleDisconnect stPair 5 "a" "ping timeout").1.rooms "r" = some ["b"]) :=
  ⟨by decide,
    (c5_departure_notifications stPair (by decide) "r" "a" "b" ["a", "b"] 5
        "ping timeout" (by decide) (Or.inl rfl) (by decide)).2.1⟩

/-! ### Claim C6 -/

theorem dropWhile_append_all {p : Char → Bool} {pre : List Char} (l : List Char)
    (hpre : ∀ x ∈ pre, p x = true) :
    (pre ++ l).dropWhile p = l.dropWhile p := by
  induction pre with
  | nil => rfl
  | cons a t ih =>
      have ha : p a = true := hpre a (List.mem_cons_self a t)
      rw [List.cons_append, List.dropWhile_cons_of_pos ha]
      exact ih (fun x hx => hpre x (List.mem_cons_of_mem a hx))

theorem dropWhile_all {p : Char → Bool} {l : List Char}
    (h : ∀ x ∈ l, p x = true) : l.dropWhile p = [] :=
  List.dropWhile_eq_nil_iff.mpr (fun x hx => by simp [h x hx])

/-- `trim` strips exactly the surrounding whitespace: on a string made of a
whitespace prefix, a core that neither starts nor ends with whitespace, and a
whitespace suffix, it returns the core. -/
theorem jsTrim_sandwich (pre core suf : List Char)
    (hpre : ∀ x ∈ pre, isJsWS x = true) (hsuf : ∀ x ∈ suf, isJsWS x = true)
    (hhead : ∀ a, core.head? = some a → isJsWS a = false)
    (hlast : ∀ a, core.getLast? = some a → isJsWS a = false) :
    jsTrim (pre ++ core ++ suf) = core := by
  rcases core with _ | ⟨a, rest⟩
  · have hall : ∀ x ∈ pre ++ ([] : List Char) ++ suf, isJsWS x = true := by
      intro x hx
      simp only [List.append_nil, List.mem_append] at hx
      rcases hx with hx | hx
      · exact hpre x hx
      · exact hsuf x hx
    unfold jsTrim jsTrimLeft jsTrimRight
    rw [dropWhile_all hall]
    rfl
  · have ha : isJsWS a = false := hhead a rfl
    unfold jsTrim jsTrimLeft jsTrimRight
    rw [List.append_assoc, dropWhile_append_all _ hpre,
      List.cons_append, List.dropWhile_cons_of_neg (by rw [ha]; exact Bool.false_ne_true)]
    rw [← List.cons_append, List.reverse_append,
      dropWhile_append_all _ (fun x hx => hsuf x (List.mem_reverse.mp hx))]
    obtain ⟨b, t, hbt⟩ : ∃ b t, (a :: rest).reverse = b :: t := by
      rcases hrev : (a :: rest).reverse with _ | ⟨b, t⟩
      · have hlen : (a :: rest).reverse.length = 0 := by rw [hrev]; rfl
        rw [List.length_reverse] at hlen
        exact absurd hlen (by simp)
      · exact ⟨b, t, rfl⟩
    have hb : (a :: rest).getLast? = some b := by
      rw [← List.head?_reverse, hbt]
      rfl
    rw [hbt, List.dropWhile_cons_of_neg (by rw [hlast b hb]; exact Bool.false_ne_true), ← hbt,
      List.reverse_reverse]

/-- C6: two raw room-id strings that differ only by letter case and
surrounding whitespace — each is whitespace, then a core not starting or
ending in whitespace, then whitespace, and the cores agree after
lowercasing — produce the same canonical room key under
`roomId.trim().toLowerCase()`, and room:join behaves identically on them, so
connections joining with either string land in the same room. -/
theorem c6_room_id_normalization
    (pre1 suf1 pre2 suf2 core1 core2 : List Char)
    (hpre1 : ∀ x ∈ pre1, isJsWS x = true) (hsuf1 : ∀ x ∈ suf1, isJsWS x = true)
    (hpre2 : ∀ x ∈ pre2, isJsWS x = true) (hsuf2 : ∀ x ∈ suf2, isJsWS x = true)
    (hh1 : ∀ a, core1.head? = some a → isJsWS a = false)
    (hl1 : ∀ a, core1.getLast? = some a → isJsWS a = false)
    (hh2 : ∀ a, core2.head? = some a → isJsWS a = false)
    (hl2 : ∀ a, core2.getLast? = some a → isJsWS a = false)
    (hcase : jsLower core1 = jsLower core2) :
    cleanRoomId ⟨pre1 ++ core1 ++ suf1⟩ = cleanRoomId ⟨pre2 ++ core2 ++ suf2⟩ ∧
    (∀ (st : ServerState) (now : Nat) (c : String),
      roomJoin st now c (some ⟨pre1 ++ core1 ++ suf1⟩) =
        roomJoin st now c (some ⟨pre2 ++ core2 ++ suf2⟩)) := by
  have ht1 : jsTrim (String.data ⟨pre1 ++ core1 ++ suf1⟩) = core1 :=
    jsTrim_sandwich pre1 core1 suf1 hpre1 hsuf1 hh1 hl1
  have ht2 : jsTrim (String.data ⟨pre2 ++ core2 ++ suf2⟩) = core2 :=
    jsTrim_sandwich pre2 core2 suf2 hpre2 hsuf2 hh2 hl2
  have hclean : cleanRoomId ⟨pre1 ++ core1 ++ suf1⟩ = cleanRoomId ⟨pre2 ++ core2 ++ suf2⟩ := by
    unfold cleanRoomId
    rw [ht1, ht2, hcase]
  refine ⟨hclean, ?_⟩
  intro st now c
  have hnil : core1 = [] ↔ core2 = [] := by
    constructor
    · intro h
      rw [h] at hcase
      have := congrArg List.length hcase
      simpa [jsLower] using this.symm
    · intro h
      rw [h] at hcase
      have := congrArg List.length hcase
      simpa [jsLower] using this
  simp only [roomJoin]
  rw [ht1, ht2, hclean]
  by_cases h1 : core1 = []
  · rw [if_pos h1, if_pos (hnil.mp h1)]
  · rw [if_neg h1, if_neg (fun hh => h1 (hnil.mpr hh))]

theorem c6_room_id_normalization_witness :
    cleanRoomId "  DeMo " = cleanRoomId "demo" ∧
      roomJoin stPair 4 "a" (some "  DeMo ") = roomJoin stPair 4 "a" (some "demo") := by
  have h := c6_room_id_normalization [' ', ' '] [' '] [] []
    ['D', 'e', 'M', 'o'] ['d', 'e', 'm', 'o']
    (by decide) (by decide) (by decide) (by decide)
    (by decide) (by decide) (by decide) (by decide) (by decide)
  exact ⟨h.1, h.2 stPair 4 "a"⟩

/-! ### Claims C7 and C8 -/

theorem outgoingCall_shape (st : ServerState) (now : Nat) (s : String)
    (a b cf : Option String) :
    (outgoingCall st now s a b cf).1 = st ∧
    ((outgoingCall st now s a b cf).2 = [Event.errorEvt s "Invalid call parameters"] ∨
     (outgoingCall st now s a b cf).2 = [Event.errorEvt s "Users are not in the same room"] ∨
     (∃ toS offS, (outgoingCall st now s a b cf).2 = [Event.incomingCall toS s offS now]) ∨
     (outgoingCall st now s a b cf).2 = []) := by
  unfold outgoingCall
  split
  · exact ⟨rfl, Or.inl rfl⟩
  · rcases a with _ | toS
    · exact ⟨rfl, Or.inr (Or.inr (Or.inr rfl))⟩
    · rcases b with _ | offS
      · exact ⟨rfl, Or.inr (Or.inr (Or.inr rfl))⟩
      · by_cases h2 : jsFalsy (alGet st.socketToRoom s) = true ∨
            alGet st.socketToRoom s ≠ alGet st.socketToRoom toS
        · refine ⟨?_, Or.inr (Or.inl ?_)⟩ <;> simp [h2]
        · refine ⟨?_, Or.inr (Or.inr (Or.inl ⟨toS, offS, ?_⟩))⟩ <;> simp [h2]

theorem callAccepted_shape (st : ServerState) (now : Nat) (s : String)
    (a b cf : Option String) :
    (callAccepted st now s a b cf).1 = st ∧
    ((callAccepted st now s a b cf).2 = [Event.errorEvt s "Invalid answer parameters"] ∨
     (∃ toS ansS, (callAccepted st now s a b cf).2 = [Event.callAcceptedEvt toS s ansS now]) ∨
     (callAccepted st now s a b cf).2 = []) := by
  unfold callAccepted
  split
  · exact ⟨rfl, Or.inl rfl⟩
  · rcases a with _ | toS
    · exact ⟨rfl, Or.inr (Or.inr rfl)⟩
    · rcases b with _ | ansS
      · exact ⟨rfl, Or.inr (Or.inr rfl)⟩
      · exact ⟨rfl, Or.inr (Or.inl ⟨toS, ansS, rfl⟩)⟩

theorem iceCandidate_shape (st : ServerState) (s : String) (a b cf : Option String) :
    (iceCandidate st s a b cf).1 = st ∧
    ((∃ toS candS, (iceCandidate st s a b cf).2 = [Event.iceCandidateEvt toS candS s]) ∨
     (iceCandidate st s a b cf).2 = []) := by
  unfold iceCandidate
  split
  · exact ⟨rfl, Or.inr rfl⟩
  · rcases a with _ | candS
    · exact ⟨rfl, Or.inr rfl⟩
    · rcases b with _ | toS
      · exact ⟨rfl, Or.inr rfl⟩
      · exact ⟨rfl, Or.inl ⟨toS, candS, rfl⟩⟩

theorem callEnded_shape (st : ServerState) (now : Nat) (s : String) (a cf : Option String) :
    (callEnded st now s a cf).1 = st ∧
    ((∃ toS, (callEnded st now s a cf).2 = [Event.callEndedEvt toS s now]) ∨
     (callEnded st now s a cf).2 = []) := by
  unfold callEnded
  split
  · exact ⟨rfl, Or.inr rfl⟩
  · rcases a with _ | toS
    · exact ⟨rfl, Or.inr rfl⟩
    · exact ⟨rfl, Or.inl ⟨toS, rfl⟩⟩

/-- C7: every forwarded signaling payload — incoming:call, call:accepted,
ice:candidate, call:ended — carries the sender's server-side socket id in its
`from` field, whatever `from` value `cf` the sender put in the inbound
message. -/
theorem c7_forwarded_from_is_sender (st : ServerState) (now : Nat) (s : String)
    (a b cf : Option String) :
    (∀ d f off ts, Event.incomingCall d f off ts ∈ (outgoingCall st now s a b cf).2 →
      f = s) ∧
    (∀ d f ans ts, Event.callAcceptedEvt d f ans ts ∈ (callAccepted st now s a b cf).2 →
      f = s) ∧
    (∀ d cand f, Event.iceCandidateEvt d cand f ∈ (iceCandidate st s a b cf).2 →
      f = s) ∧
    (∀ d f ts, Event.callEndedEvt d f ts ∈ (callEnded st now s a cf).2 → f = s) := by
  refine ⟨?_, ?_, ?_, ?_⟩
  · intro d f off ts hmem
    rcases (outgoingCall_shape st now s a b cf).2 with h | h | ⟨toS, offS, h⟩ | h <;>
      rw [h] at hmem <;> simp at hmem
    exact hmem.2.1
  · intro d f ans ts hmem
    rcases (callAccepted_shape st now s a b cf).2 with h | ⟨toS, ansS, h⟩ | h <;>
      rw [h] at hmem <;> simp at hmem
    exact hmem.2.1
  · intro d cand f hmem
    rcases (iceCandidate_shape st s a b cf).2 with ⟨toS, candS, h⟩ | h <;>
      rw [h] at hmem <;> simp at hmem
    exact hmem.2.2
  · intro d f ts hmem
    rcases (callEnded_shape st now s a cf).2 with ⟨toS, h⟩ | h <;>
      rw [h] at hmem <;> simp at hmem
    exact hmem.2.1

theorem c7_forwarded_from_is_sender_witness :
    Event.incomingCall "y" "x" "o" 7 ∈ (outgoingCall stTwoFull 7 "x" (some "y")
        (some "o") (some "spoofed")).2 ∧ ("x" : String) = "x" :=
  ⟨by decide,
    (c7_forwarded_from_is_sender stTwoFull 7 "x" (some "y") (some "o")
        (some "spoofed")).1 "y" "x" "o" 7 (by decide)⟩

/-- C8: an ice:candidate message whose candidate is null/absent/empty or whose
destination is absent/empty is a silent no-op: the handler (a total function,
so no crash) emits no event at all — no error, no forward — and leaves the
state unchanged. -/
theorem c8_ice_candidate_silent (st : ServerState) (s : String)
    (cand toD cf : Option String)
    (h : jsFalsy cand = true ∨ jsFalsy toD = true) :
    iceCandidate st s cand toD cf = (st, []) := by
  unfold iceCandidate
  rw [if_pos (Bool.or_eq_true _ _ ▸ h)]

theorem c8_ice_candidate_silent_witness :
    (jsFalsy none = true ∨ jsFalsy (some "b") = true) ∧
      iceCandidate stPair "a" none (some "b") none = (stPair, []) :=
  ⟨Or.inl rfl, c8_ice_candidate_silent stPair "a" none (some "b") none (Or.inl rfl)⟩

/-! ### Claim C10 -/

/-- C10: a rejoin of room r by a connection c that is already its member, with
one peer p present, succeeds (the capacity check is bypassed because the room
contains c) but is not notification-free: the peer p first receives a
user:left for c whose userCount 1 reflects c's temporary removal, then a
user:joined for c; the room ends up holding p and c. -/
theorem c10_rejoin_not_silent (st : ServerState) (hInv : Inv st)
    (now : Nat) (r c p rid : String) (mem : List String)
    (hr : alGet st.rooms r = some mem) (hmem : mem = [c, p] ∨ mem = [p, c])
    (hne : p ≠ c) (hrid : cleanRoomId rid = r) (htrim : jsTrim rid.data ≠ []) :
    (roomJoin st now c (some rid)).2 =
      [Event.userLeft p c r 1,
       Event.userJoined c p r (getRoomInfo (roomJoin st now c (some rid)).1 r),
       Event.userJoined p c r (getRoomInfo (roomJoin st now c (some rid)).1 r),
       Event.roomJoined c (getRoomInfo (roomJoin st now c (some rid)).1 r)] ∧
    alGet (roomJoin st now c (some rid)).1.rooms r = some [p, c] := by
  have hcm : c ∈ mem := by
    rcases hmem with h | h <;> simp [h]
  have hfull : roomFull st c r = false := by
    unfold roomFull
    rw [hr]
    show (decide (2 ≤ mem.length) && !mem.contains c) = false
    have hc : mem.contains c = true := by simpa using hcm
    rw [hc]
    simp
  have hj : roomJoin st now c (some rid) = joinProceed st now c r := by
    have h0 := roomJoin_proceed_eq st now c htrim (hrid ▸ hfull)
    rwa [hrid] at h0
  have hleave := leave_pair_eq hInv hr hmem hne
  have hcp : c ≠ p := Ne.symm hne
  rw [hj]
  unfold joinProceed
  rw [hleave]
  rcases hprof : alGet st.userProfiles c with _ | prof <;>
    simp [alGet_alSet_self, setAdd, hcp, hne, hprof, getRoomInfo]

theorem c10_rejoin_not_silent_witness :
    Inv stPair ∧
      alGet (roomJoin stPair 4 "a" (some "r")).1.rooms "r" = some ["b", "a"] :=
  ⟨by decide,
    (c10_rejoin_not_silent stPair (by decide) 4 "r" "a" "b" "r" ["a", "b"]
        (by decide) (Or.inl rfl) (by decide) (by decide) (by decide)).2⟩

/-! ### Claim C9 -/

/-- Once a socket is absent from the registry, the socketToRoom map and every
room, `leaveCurrentRoom` for any socket keeps it absent. -/
theorem leave_gone_mono {st : ServerState} {x : String} (y : String)
    (hP : alGet st.userProfiles x = none)
    (hS : alGet st.socketToRoom x = none)
    (hR : ∀ p ∈ st.rooms, x ∉ p.2) :
    alGet (leaveCurrentRoom st y).1.userProfiles x = none ∧
    alGet (leaveCurrentRoom st y).1.socketToRoom x = none ∧
    ∀ p ∈ (leaveCurrentRoom st y).1.rooms, x ∉ p.2 := by
  rcases leaveCurrentRoom_spec st y with ⟨h1, heq⟩ | ⟨cur, h1, ⟨h2, heq⟩ | ⟨mem, h2, heq⟩⟩
  · rw [heq]
    exact ⟨hP, hS, hR⟩
  · rw [heq]
    refine ⟨hP, ?_, hR⟩
    by_cases hxy : x = y
    · subst hxy
      exact alGet_alDel_self _ _
    · rw [alGet_alDel_ne _ _ _ hxy]
      exact hS
  · rw [heq]
    refine ⟨hP, ?_, ?_⟩
    · by_cases hxy : x = y
      · subst hxy
        exact alGet_alDel_self _ _
      · rw [alGet_alDel_ne _ _ _ hxy]
        exact hS
    · intro p hp
      have helim : p = (cur, mem.filter (fun z => z ≠ y)) ∨ p ∈ st.rooms := by
        by_cases h3 : (mem.filter (fun z => z ≠ y)).length = 0
        · rw [if_pos h3] at hp
          exact mem_alSet_elim (mem_alDel_elim hp).1
        · rw [if_neg h3] at hp
          exact mem_alSet_elim hp
      rcases helim with h4 | h4
      · rw [h4]
        intro hx
        exact hR (cur, mem) (mem_of_alGet_eq_some h2) (mem_filter_ne.mp hx).1
      · exact hR p h4

theorem sweepUsers_gone_mono {x : String} (now : Nat) (l : List (String × Profile))
    (st : ServerState)
    (hP : alGet st.userProfiles x = none)
    (hS : alGet st.socketToRoom x = none)
    (hR : ∀ p ∈ st.rooms, x ∉ p.2) :
    alGet (sweepUsers now l st).1.userProfiles x = none ∧
    alGet (sweepUsers now l st).1.socketToRoom x = none ∧
    ∀ p ∈ (sweepUsers now l st).1.rooms, x ∉ p.2 := by
  induction l generalizing st with
  | nil => exact ⟨hP, hS, hR⟩
  | cons hd tl ih =>
      obtain ⟨sid, prof⟩ := hd
      by_cases hst : maxInactiveTime < now - prof.lastActivity
      · have hstep : sweepUsers now ((sid, prof) :: tl) st =
            ((sweepUsers now tl
                (leaveCurrentRoom { st with userProfiles := alDel st.userProfiles sid }
                  sid).1).1,
             (leaveCurrentRoom { st with userProfiles := alDel st.userProfiles sid }
                  sid).2.1 ++
               (sweepUsers now tl
                 (leaveCurrentRoom { st with userProfiles := alDel st.userProfiles sid }
                   sid).1).2) := by
          simp [sweepUsers, hst]
        rw [hstep]
        have hP1 : alGet ({ st with userProfiles := alDel st.userProfiles sid } :
            ServerState).userProfiles x = none := by
          by_cases hxs : x = sid
          · subst hxs
            exact alGet_alDel_self _ _
          · show alGet (alDel st.userProfiles sid) x = none
            rw [alGet_alDel_ne _ _ _ hxs]
            exact hP
        obtain ⟨hP2, hS2, hR2⟩ := leave_gone_mono sid hP1 hS hR
        exact ih _ hP2 hS2 hR2
      · have hstep : sweepUsers now ((sid, prof) :: tl) st = sweepUsers now tl st := by
          simp [sweepUsers, hst]
        rw [hstep]
        exact ih st hP hS hR

theorem sweepUsers_removes {now : Nat} {c : String} {pc : Profile}
    (hstale : maxInactiveTime < now - pc.lastActivity) :
    ∀ (l : List (String × Profile)) (st : ServerState), Inv st → (c, pc) ∈ l →
    alGet (sweepUsers now l st).1.userProfiles c = none ∧
    alGet (sweepUsers now l st).1.socketToRoom c = none ∧
    ∀ p ∈ (sweepUsers now l st).1.rooms, c ∉ p.2 := by
  intro l
  induction l with
  | nil =>
      intro st _ hmem
      cases hmem
  | cons hd tl ih =>
      intro st hInv hmem
      obtain ⟨sid, prof⟩ := hd
      have hInv1 : Inv ({ st with userProfiles := alDel st.userProfiles sid } :
          ServerState) := hInv
      by_cases hst : maxInactiveTime < now - prof.lastActivity
      · have hstep : sweepUsers now ((sid, prof) :: tl) st =
            ((sweepUsers now tl
                (leaveCurrentRoom { st with userProfiles := alDel st.userProfiles sid }
                  sid).1).1,
             (leaveCurrentRoom { st with userProfiles := alDel st.userProfiles sid }
                  sid).2.1 ++
               (sweepUsers now tl
                 (leaveCurrentRoom { st with userProfiles := alDel st.userProfiles sid }
                   sid).1).2) := by
          simp [sweepUsers, hst]
        rw [hstep]
        have hInv2 : Inv (leaveCurrentRoom
            { st with userProfiles := alDel st.userProfiles sid } sid).1 :=
          Inv_leaveCurrentRoom sid hInv1
        by_cases hsc : sid = c
        · subst hsc
          have hP2 : alGet (leaveCurrentRoom
              { st with userProfiles := alDel st.userProfiles sid } sid).1.userProfiles
                sid = none := by
            rw [leaveCurrentRoom_userProfiles]
            exact alGet_alDel_self _ _
          have hS2 := leaveCurrentRoom_str_self
            ({ st with userProfiles := alDel st.userProfiles sid } : ServerState) sid
          have hR2 := leaveCurrentRoom_not_mem sid hInv1
          exact sweepUsers_gone_mono now tl _ hP2 hS2 hR2
        · have hmem' : (c, pc) ∈ tl := by
            rcases List.mem_cons.mp hmem with h4 | h4
            · cases h4
              exact absurd rfl hsc
            · exact h4
          exact ih _ hInv2 hmem'
      · have hstep : sweepUsers now ((sid, prof) :: tl) st = sweepUsers now tl st := by
          simp [sweepUsers, hst]
        rw [hstep]
        have hmem' : (c, pc) ∈ tl := by
          rcases List.mem_cons.mp hmem with h4 | h4
          · obtain ⟨h5, h6⟩ := Prod.mk.injEq .. ▸ h4
            subst h5
            subst h6
            exact absurd hstale hst
          · exact h4
        exact ih st hInv hmem'

/-- Leaving by a third socket keeps two other members inside their room. -/
theorem leave_keeps_members {st : ServerState} {r s : String} {mem : List String}
    (hr : alGet st.rooms r = some mem) {c q : String}
    (hc : c ∈ mem) (hq : q ∈ mem) (hcs : c ≠ s) (hqs : q ≠ s) :
    ∃ mem2, alGet (leaveCurrentRoom st s).1.rooms r = some mem2 ∧
      c ∈ mem2 ∧ q ∈ mem2 := by
  rcases leaveCurrentRoom_spec st s with ⟨h1, heq⟩ | ⟨cur, h1, ⟨h2, heq⟩ | ⟨memS, h2, heq⟩⟩
  · rw [heq]
    exact ⟨mem, hr, hc, hq⟩
  · rw [heq]
    exact ⟨mem, hr, hc, hq⟩
  · by_cases hrc : r = cur
    · rw [heq, ← hrc]
      rw [← hrc] at h2
      rw [hr] at h2
      have hms : memS = mem := by simpa using h2.symm
      subst hms
      have hcf : c ∈ memS.filter (fun z => z ≠ s) := mem_filter_ne.mpr ⟨hc, hcs⟩
      have h3 : ¬(memS.filter (fun z => z ≠ s)).length = 0 := by
        intro hh
        rw [List.length_eq_zero] at hh
        rw [hh] at hcf
        cases hcf
      refine ⟨memS.filter (fun z => z ≠ s), ?_, hcf, mem_filter_ne.mpr ⟨hq, hqs⟩⟩
      show alGet (if (memS.filter (fun x => x ≠ s)).length = 0 then
          alDel (alSet st.rooms r (memS.filter (fun x => x ≠ s))) r
        else alSet st.rooms r (memS.filter (fun x => x ≠ s))) r = _
      rw [if_neg h3]
      exact alGet_alSet_self _ _ _
    · rw [heq]
      refine ⟨mem, ?_, hc, hq⟩
      show alGet (if (memS.filter (fun x => x ≠ s)).length = 0 then
          alDel (alSet st.rooms cur (memS.filter (fun x => x ≠ s))) cur
        else alSet st.rooms cur (memS.filter (fun x => x ≠ s))) r = _
      by_cases h3 : (memS.filter (fun x => x ≠ s)).length = 0
      · rw [if_pos h3, alGet_alDel_ne _ _ _ hrc, alGet_alSet_ne _ _ _ _ hrc]
        exact hr
      · rw [if_neg h3, alGet_alSet_ne _ _ _ _ hrc]
        exact hr

theorem sweepUsers_notifies {now : Nat} {c q r : String} {pc : Profile}
    (hstale : maxInactiveTime < now - pc.lastActivity) (hqc : q ≠ c) :
    ∀ (l : List (String × Profile)) (st : ServerState) (mem : List String),
    Inv st → (c, pc) ∈ l →
    (∀ pq, (q, pq) ∈ l → ¬ maxInactiveTime < now - pq.lastActivity) →
    alGet st.rooms r = some mem → c ∈ mem → q ∈ mem →
    ∃ n, Event.userLeft q c r n ∈ (sweepUsers now l st).2 := by
  intro l
  induction l with
  | nil =>
      intro st mem _ hmem
      cases hmem
  | cons hd tl ih =>
      intro st mem hInv hmem hqn hr hc hq
      obtain ⟨sid, prof⟩ := hd
      have hInv1 : Inv ({ st with userProfiles := alDel st.userProfiles sid } :
          ServerState) := hInv
      by_cases hst : maxInactiveTime < now - prof.lastActivity
      · have hstep : sweepUsers now ((sid, prof) :: tl) st =
            ((sweepUsers now tl
                (leaveCurrentRoom { st with userProfiles := alDel st.userProfiles sid }
                  sid).1).1,
             (leaveCurrentRoom { st with userProfiles := alDel st.userProfiles sid }
                  sid).2.1 ++
               (sweepUsers now tl
                 (leaveCurrentRoom { st with userProfiles := alDel st.userProfiles sid }
                   sid).1).2) := by
          simp [sweepUsers, hst]
        rw [hstep]
        have hsq : sid ≠ q := by
          intro hh
          subst hh
          exact hqn prof (List.mem_cons_self _ _) hst
        by_cases hsc : sid = c
        · subst hsc
          have hr1 : alGet ({ st with userProfiles := alDel st.userProfiles sid } :
              ServerState).rooms r = some mem := hr
          have hstr1 : alGet ({ st with userProfiles := alDel st.userProfiles sid } :
              ServerState).socketToRoom sid = some r := hInv1.memToRoom hr1 hc
          rcases leaveCurrentRoom_spec
              ({ st with userProfiles := alDel st.userProfiles sid } : ServerState) sid
            with ⟨h1, _⟩ | ⟨cur, h1, ⟨h2, _⟩ | ⟨memS, h2, heq⟩⟩
          · rw [hstr1] at h1
            cases h1
          · rw [hstr1] at h1
            have hcur : cur = r := by simpa using h1.symm
            rw [hcur, hr1] at h2
            cases h2
          · rw [hstr1] at h1
            have hcur : cur = r := by simpa using h1.symm
            rw [hcur] at heq h2
            rw [hr1] at h2
            have hms : memS = mem := by simpa using h2.symm
            subst hms
            rw [heq]
            refine ⟨(memS.filter (fun x => x ≠ sid)).length, List.mem_append_left _ ?_⟩
            show Event.userLeft q sid r (memS.filter (fun x => x ≠ sid)).length ∈
              (memS.filter (fun x => x ≠ sid)).map (fun other =>
                Event.userLeft other sid r (memS.filter (fun x => x ≠ sid)).length)
            exact List.mem_map.mpr ⟨q, mem_filter_ne.mpr ⟨hq, Ne.symm hsq⟩, rfl⟩
        · have hmem' : (c, pc) ∈ tl := by
            rcases List.mem_cons.mp hmem with h4 | h4
            · cases h4
              exact absurd rfl hsc
            · exact h4
          have hInv2 : Inv (leaveCurrentRoom
              { st with userProfiles := alDel st.userProfiles sid } sid).1 :=
            Inv_leaveCurrentRoom sid hInv1
          have hr1 : alGet ({ st with userProfiles := alDel st.userProfiles sid } :
              ServerState).rooms r = some mem := hr
          obtain ⟨mem2, hr2, hc2, hq2⟩ := leave_keeps_members hr1 hc hq
            (fun hh => hsc hh.symm) (fun hh => hsq hh.symm)
          obtain ⟨n, hn⟩ := ih _ mem2 hInv2 hmem'
            (fun pq hpq => hqn pq (List.mem_cons_of_mem _ hpq)) hr2 hc2 hq2
          exact ⟨n, List.mem_append_right _ hn⟩
      · have hstep : sweepUsers now ((sid, prof) :: tl) st = sweepUsers now tl st := by
          simp [sweepUsers, hst]
        rw [hstep]
        have hmem' : (c, pc) ∈ tl := by
          rcases List.mem_cons.mp hmem with h4 | h4
          · obtain ⟨h5, h6⟩ := Prod.mk.injEq .. ▸ h4
            subst h5
            subst h6
            exact absurd hstale hst
          · exact h4
        exact ih st mem hInv hmem'
          (fun pq hpq => hqn pq (List.mem_cons_of_mem _ hpq)) hr hc hq

/-- C9: one run of the periodic cleanup interval unregisters every stale
connection (its profile entry, socketToRoom entry and room membership are all
gone afterwards), and if the stale connection shared a room with a non-stale
peer, that peer is sent a user:left departure notification during the
sweep. -/
theorem c9_idle_reaper_sweep (st : ServerState) (hInv : Inv st)
    (hnodup : (st.userProfiles.map Prod.fst).Nodup) (now : Nat)
    (c : String) (pc : Profile)
    (hc : alGet st.userProfiles c = some pc)
    (hstale : maxInactiveTime < now - pc.lastActivity) :
    (alGet (cleanupSweep st now).1.userProfiles c = none ∧
     alGet (cleanupSweep st now).1.socketToRoom c = none ∧
     ∀ p ∈ (cleanupSweep st now).1.rooms, c ∉ p.2) ∧
    (∀ r mem q pq, alGet st.rooms r = some mem → c ∈ mem → q ∈ mem → q ≠ c →
      alGet st.userProfiles q = some pq →
      ¬ maxInactiveTime < now - pq.lastActivity →
      ∃ n, Event.userLeft q c r n ∈ (cleanupSweep st now).2) := by
  have hcmem : (c, pc) ∈ st.userProfiles := mem_of_alGet_eq_some hc
  constructor
  · obtain ⟨hP, hS, hR⟩ :=
      sweepUsers_removes hstale st.userProfiles st hInv hcmem
    refine ⟨hP, hS, ?_⟩
    intro p hp
    exact hR p (List.mem_filter.mp hp).1
  · intro r mem q pq hr hcm hqm hqc hq hqn
    have hqall : ∀ pq', (q, pq') ∈ st.userProfiles →
        ¬ maxInactiveTime < now - pq'.lastActivity := by
      intro pq' hpq'
      have : alGet st.userProfiles q = some pq' := alGet_eq_some_of_mem hnodup hpq'
      rw [hq] at this
      have hpp : pq' = pq := by simpa using this.symm
      rw [hpp]
      exact hqn
    obtain ⟨n, hn⟩ := sweepUsers_notifies hstale hqc st.userProfiles st mem hInv
      hcmem hqall hr hcm hqm
    exact ⟨n, hn⟩

/-- Room "r" with stale "a" (idle since time 0) and fresh "b". -/
def stReap : ServerState :=
  { rooms := [("r", ["a", "b"])]
    socketToRoom := [("a", "r"), ("b", "r")]
    userProfiles :=
      [("a", { connectedAt := 0, lastActivity := 0, currentRoom := some "r" }),
       ("b", { connectedAt := 0, lastActivity := 1800001, currentRoom := some "r" })] }

theorem c9_idle_reaper_sweep_witness :
    Inv stReap ∧
      (alGet (cleanupSweep stReap 1800001).1.userProfiles "a" = none ∧
       ∃ n, Event.userLeft "b" "a" "r" n ∈ (cleanupSweep stReap 1800001).2) := by
  have h := c9_idle_reaper_sweep stReap (by decide) (by decide) 1800001 "a"
    { connectedAt := 0, lastActivity := 0, currentRoom := some "r" }
    (by decide) (by decide)
  refine ⟨by decide, h.1.1, ?_⟩
  exact h.2 "r" ["a", "b"] "b"
    { connectedAt := 0, lastActivity := 1800001, currentRoom := some "r" }
    (by decide) (by decide) (by decide) (by decide) (by decide) (by decide)

end VideoCall
